import Mathlib

/-!
Verification of the tool-calling orchestration core of the `mail-ads-ai`
repository: the agent service (`AgentService.process_query`,
`AgentService.process_review`, `AgentService._execute_tools`), its tool
registry, and the RAG retrieval engine (`RAGSystem.search`,
`RAGSystem._split_text`).

The Python source is shallowly embedded: dictionaries holding
JSON-serializable values become the inductive `JVal`, tool actions become
functions `Args → Except String JVal` (a raised exception is `.error`),
the LLM becomes an oracle `Nat → Except String Response` giving the
response to the n-th `chat` call (an exception is `.error`), and the
iteration-bounded `while` loop becomes fuel-indexed recursion
(`processLoop`), with the fuel equal to the source's `max_iterations`.
-/

set_option maxHeartbeats 1000000
set_option maxRecDepth 100000

namespace MailAds

/-- A JSON-like value, the shape of tool results and tool arguments
(`json.dumps`-serializable Python values restricted to what the agent
service manipulates). -/
inductive JVal where
  | str : String → JVal
  | bool : Bool → JVal
  | num : Int → JVal
  | obj : List (String × JVal) → JVal

mutual

/-- Rendering of a `JVal` to the string stored in a tool message's
`content` (the embedding of `json.dumps`; string escaping is immaterial
to every claim and is omitted). -/
def renderJVal : JVal → String
  | .str s => "\x22" ++ s ++ "\x22"
  | .bool b => if b then "true" else "false"
  | .num n => toString n
  | .obj l => "\x7b" ++ renderFields l ++ "\x7d"

/-- Rendering of the fields of a JSON object, comma-separated. -/
def renderFields : List (String × JVal) → String
  | [] => ""
  | [(k, v)] => "\x22" ++ k ++ "\x22: " ++ renderJVal v
  | (k, v) :: p :: rest => "\x22" ++ k ++ "\x22: " ++ renderJVal v ++ ", " ++ renderFields (p :: rest)

end

/-- Keyword arguments passed to a tool's `execute(**arguments)`. -/
abbrev Args := List (String × JVal)

/-- The error object `{"error": msg}` built by `_execute_tools` on a
failed or unknown tool call (agent_service.py lines 361 and 364). -/
def errObj (msg : String) : JVal := .obj [("error", .str msg)]

/-- A registered tool capability: `BaseTool` (infrastructure/tools/base.py).
`execute` models the async action; a raised exception is `.error msg`
with `msg = str(e)`. -/
structure Tool where
  name : String
  description : String
  execute : Args → Except String JVal

/-- The argument payload of a tool-invocation request: already a
structured map, or a raw string still to be parsed by `json.loads`
(agent_service.py lines 341, 346-347). -/
inductive ArgPayload where
  | parsed : Args → ArgPayload
  | raw : String → ArgPayload

/-- A tool-invocation request emitted by the model: one element of an
assistant message's `tool_calls` list. -/
structure ToolCall where
  id : String
  name : String
  args : ArgPayload

/-- The registry `self.tools`: a Python `dict` in insertion order, here
an association list with unique keys. -/
abbrev Registry := List (String × Tool)

/-- One step of the dict comprehension `{tool.name: tool for tool in
tools}` (agent_service.py line 31): inserting into a Python dict
replaces the value of an existing key in place and otherwise appends the
new key at the end. -/
def dictInsert (m : List (String × Tool)) (t : Tool) : List (String × Tool) :=
  if m.any (fun p => p.1 = t.name) then
    m.map (fun p => if p.1 = t.name then (p.1, t) else p)
  else
    m ++ [(t.name, t)]

/-- The registry built by `AgentService.__init__` from the tool list. -/
def buildTools (ts : List Tool) : Registry :=
  ts.foldl dictInsert []

/-- Dictionary lookup `self.tools[name]` / `name in self.tools`. -/
def lookupTool (m : Registry) (n : String) : Option Tool :=
  (m.find? (fun p => p.1 = n)).map Prod.snd

/-- The model-facing descriptor of a tool: `BaseTool.to_dict`. -/
structure ToolDescriptor where
  name : String
  description : String

/-- `AgentService._get_tools_for_llm`: one descriptor per registry
entry, in dict order. -/
def getToolsForLLM (m : Registry) : List ToolDescriptor :=
  m.map (fun p => { name := p.2.name, description := p.2.description })

/-- Resolving a request's argument payload: `json.loads` is applied only
when the payload is a raw string; a parse failure raises (is `.error`). -/
def resolveArgs (parse : String → Except String Args) : ArgPayload → Except String Args
  | .parsed a => .ok a
  | .raw s => parse s

/-- Dispatch of a single tool call: the body of the `for` loop of
`AgentService._execute_tools` (agent_service.py lines 338-364). Unknown
tool, argument-parse failure and a raised action exception all become an
`errObj` result. -/
def execOne (m : Registry) (parse : String → Except String Args) (tc : ToolCall) : JVal :=
  match lookupTool m tc.name with
  | some tool =>
    match resolveArgs parse tc.args with
    | .ok a =>
      match tool.execute a with
      | .ok v => v
      | .error e => errObj e
    | .error e => errObj e
  | none => errObj ("Unknown tool: " ++ tc.name)

/-- `AgentService._execute_tools`: one result per call, in order. -/
def executeTools (m : Registry) (parse : String → Except String Args)
    (toolCalls : List ToolCall) : List JVal :=
  toolCalls.map (execOne m parse)

/-- A conversation message. The source passes role-tagged dicts whose
optional fields (`tool_calls`, `tool_call_id`) default to absent; absent
is modelled as `[]` / `""`. -/
structure Message where
  role : String
  content : String
  toolCalls : List ToolCall := []
  toolCallId : String := ""

/-- The fallback dict `{"error": "No result"}` used when a request has
no paired result (agent_service.py line 153). -/
def noResultObj : JVal := errObj "No result"

/-- The tool message appended for one request/result pair
(agent_service.py lines 161-165). -/
def mkToolMessage (id : String) (result : JVal) : Message :=
  { role := "tool", content := renderJVal result, toolCallId := id }

/-- The body of the pairing loop `for i, tool_call in
enumerate(tool_calls)` (agent_service.py lines 147-165): a request with
an empty/missing `id` is skipped (`continue`), otherwise the i-th result
(or `{"error": "No result"}` past the end) is rendered and appended as a
tool message tagged with that request's `id`. -/
def toolMessagesAux (results : List JVal) : Nat → List ToolCall → List Message
  | _, [] => []
  | i, tc :: rest =>
    if tc.id = "" then
      toolMessagesAux results (i + 1) rest
    else
      mkToolMessage tc.id (results.getD i noResultObj) :: toolMessagesAux results (i + 1) rest

/-- The tool messages appended after one batch of tool calls. -/
def toolMessagesFor (toolCalls : List ToolCall) (results : List JVal) : List Message :=
  toolMessagesAux results 0 toolCalls

/-- The specification-shaped form of the pairing: zip each request with
its result positionally, drop the requests without an identifier, and
tag each surviving pair's tool message with that request's identifier. -/
def pairedToolMessages (toolCalls : List ToolCall) (results : List JVal) : List Message :=
  (toolCalls.zip results).filterMap
    (fun p => if p.1.id = "" then none else some (mkToolMessage p.1.id p.2))

/-- One choice of an LLM chat response. -/
structure Choice where
  message : Message

/-- An LLM chat response: `{"choices": [...]}`. A response lacking the
`choices` key is modelled as one with an empty `choices` list (the
source treats the two identically at line 122). -/
structure Response where
  choices : List Choice

/-- The assistant message of a model response carrying the given content
and tool calls. -/
def assistantMessage (content : String) (toolCalls : List ToolCall) : Message :=
  { role := "assistant", content := content, toolCalls := toolCalls }

/-- A response with a single choice carrying the given assistant content
and tool calls. -/
def mkResponse (content : String) (toolCalls : List ToolCall) : Response :=
  { choices := [{ message := assistantMessage content toolCalls }] }

/-- How the orchestration loop ended. -/
inductive LoopExit where
  | finalAnswer
  | noChoice
  | llmError (e : String)
  | capReached

/-- Result of the loop: exit kind, last extracted content, final message
list, and number of `llm.chat` calls made. -/
structure LoopResult where
  exit : LoopExit
  content : String
  messages : List Message
  modelCalls : Nat

/-- The `while iteration < max_iterations` loop shared verbatim by
`process_query` (agent_service.py lines 111-167) and `process_review`
(lines 235-291). `k` is the index of the next model call, `fuel` the
remaining iterations. Each pass consumes one oracle response: a missing
or empty `choices` list ends with `.noChoice` (the early `return` at
line 123); a raised chat exception ends with `.llmError`; a response
without tool calls breaks out with `.finalAnswer`; otherwise the tools
are dispatched, the assistant message and the paired tool messages are
appended, and the loop continues. -/
def processLoop (m : Registry) (parse : String → Except String Args)
    (llm : Nat → Except String Response) :
    Nat → Nat → List Message → String → LoopResult
  | 0, _, messages, content =>
    { exit := .capReached, content := content, messages := messages, modelCalls := 0 }
  | fuel + 1, k, messages, content =>
    match llm k with
    | .error e =>
      { exit := .llmError e, content := content, messages := messages, modelCalls := 1 }
    | .ok response =>
      match response.choices.head? with
      | none =>
        { exit := .noChoice, content := content, messages := messages, modelCalls := 1 }
      | some choice =>
        let message := choice.message
        if message.toolCalls.isEmpty then
          { exit := .finalAnswer, content := message.content, messages := messages, modelCalls := 1 }
        else
          let toolResults := executeTools m parse message.toolCalls
          let messages' := messages ++ message :: toolMessagesFor message.toolCalls toolResults
          let r := processLoop m parse llm fuel (k + 1) messages' message.content
          { r with modelCalls := r.modelCalls + 1 }

/-- The source's iteration cap `max_iterations = 25`. -/
def maxIterations : Nat := 25

/-- Python `history[-5:]`: the most recent five entries. -/
def lastN (n : Nat) (l : List Message) : List Message :=
  l.drop (l.length - n)

/-- The fixed failure text returned when a response has no usable choice. -/
def noChoiceText : String := "Не удалось получить ответ от LLM."

/-- `AgentService._get_system_prompt_tools_description`, reduced to the
data the claims can observe: the static tool list text followed by one
line per registered `figma_`-prefixed tool. The surrounding Russian
prose of the prompt is kept as an uninterpreted literal. -/
def toolsDescription (m : Registry) : String :=
  (m.filter (fun p => p.1.startsWith "figma_")).foldl
    (fun acc p => acc ++ "\n- **" ++ p.1 ++ "** - " ++ p.2.description)
    "У тебя есть доступ к следующим инструментам: rag_search, git_search_file, git_list_files, git_read_file, git_current_branch, git_current_changes, git_diff, git_log, git_file_history"

/-- The system message seeding each `process_query` conversation. -/
def systemMessage (m : Registry) : Message :=
  { role := "system", content := toolsDescription m }

/-- The system message seeding each `process_review` conversation. -/
def reviewSystemMessage (m : Registry) : Message :=
  { role := "review-system", content := toolsDescription m }

/-- The history entry `{"role": "user", "content": query}` appended by
`process_query` before the loop (agent_service.py lines 79-82). -/
def userMessage (query : String) : Message :=
  { role := "user", content := query }

/-- The full observable outcome of `process_query` / `process_review`:
the returned string, the persistent `conversation_history` afterwards,
the final in-loop message list, the number of model calls, and the loop
exit kind. -/
structure QueryOutcome where
  result : String
  history : List Message
  loopMessages : List Message
  modelCalls : Nat
  exit : LoopExit

/-- `AgentService.process_query` (agent_service.py lines 68-182): append
the user query to `conversation_history`, build the model messages from
the system prompt and the last five history entries, run the loop, and on
the `break` and cap exits append the final content as an assistant
history entry and return it; the no-choice `return` and the `except`
branch return their failure strings without touching history further. -/
def processQueryFull (m : Registry) (parse : String → Except String Args)
    (llm : Nat → Except String Response) (history : List Message) (query : String) :
    QueryOutcome :=
  let history1 := history ++ [userMessage query]
  let messages := systemMessage m :: lastN 5 history1
  let r := processLoop m parse llm maxIterations 0 messages ""
  match r.exit with
  | .finalAnswer =>
    { result := r.content, history := history1 ++ [{ role := "assistant", content := r.content }],
      loopMessages := r.messages, modelCalls := r.modelCalls, exit := r.exit }
  | .capReached =>
    { result := r.content, history := history1 ++ [{ role := "assistant", content := r.content }],
      loopMessages := r.messages, modelCalls := r.modelCalls, exit := r.exit }
  | .noChoice =>
    { result := noChoiceText, history := history1,
      loopMessages := r.messages, modelCalls := r.modelCalls, exit := r.exit }
  | .llmError e =>
    { result := "Ошибка при обработке запроса: " ++ e, history := history1,
      loopMessages := r.messages, modelCalls := r.modelCalls, exit := r.exit }

/-- `AgentService.process_review` (agent_service.py lines 184-300): a
fresh two-message conversation (review system prompt plus the payload as
a single user turn), the same loop, and no interaction whatsoever with
`conversation_history` on any path. -/
def processReviewFull (m : Registry) (parse : String → Except String Args)
    (llm : Nat → Except String Response) (history : List Message) (query : String) :
    QueryOutcome :=
  let messages := [reviewSystemMessage m, { role := "user", content := query }]
  let r := processLoop m parse llm maxIterations 0 messages ""
  match r.exit with
  | .finalAnswer =>
    { result := r.content, history := history,
      loopMessages := r.messages, modelCalls := r.modelCalls, exit := r.exit }
  | .capReached =>
    { result := r.content, history := history,
      loopMessages := r.messages, modelCalls := r.modelCalls, exit := r.exit }
  | .noChoice =>
    { result := noChoiceText, history := history,
      loopMessages := r.messages, modelCalls := r.modelCalls, exit := r.exit }
  | .llmError e =>
    { result := "Ошибка при обработке ревью: " ++ e, history := history,
      loopMessages := r.messages, modelCalls := r.modelCalls, exit := r.exit }

/-! ### The retrieval engine: `RAGSystem` (infrastructure/rag/rag_system.py) -/

/-- One stored chunk of the vector store, together with its cosine
distance to the query under consideration (the number ChromaDB reports
for it). Distances are embedded as rationals. -/
structure StoreEntry where
  content : String
  filepath : String
  distance : ℚ

/-- Insertion into a distance-ascending list. -/
def insertByDist (e : StoreEntry) : List StoreEntry → List StoreEntry
  | [] => [e]
  | x :: xs => if e.distance ≤ x.distance then e :: x :: xs else x :: insertByDist e xs

/-- Sorting a store by ascending distance. -/
def sortByDist (l : List StoreEntry) : List StoreEntry :=
  l.foldr insertByDist []

/-- Modelled from the spec: the external ChromaDB
`collection.query(query_embeddings, n_results)` call (rag_system.py
lines 200-203) — the vector store is third-party code absent from the
repository; per the spec's cosine-distance metric it returns the
`n_results` nearest stored entries, ordered by ascending cosine
distance. -/
def collectionQuery (store : List StoreEntry) (nResults : Nat) : List StoreEntry :=
  (sortByDist store).take nResults

/-- One search result dict built by `RAGSystem.search` (rag_system.py
lines 209-214): content, filepath, metadata-derived fields and the raw
distance. -/
structure SearchResult where
  content : String
  filepath : String
  distance : ℚ

/-- `RAGSystem.search` (rag_system.py lines 182-222): query the store
for `top_k` nearest entries; when the result set is empty return the
empty list, otherwise map every hit to a result record carrying its raw
distance. -/
def ragSearch (store : List StoreEntry) (topK : Nat) : List SearchResult :=
  let results := collectionQuery store topK
  if results.length > 0 then
    results.map (fun e => { content := e.content, filepath := e.filepath, distance := e.distance })
  else
    []

/-- One formatted entry of the `rag_search` tool's reply
(rag_tool.py lines 64-70). -/
structure RagToolEntry where
  filepath : String
  content : String
  relevance : Option ℚ

/-- The result-formatting loop of `RAGSearchTool.execute` (rag_tool.py
lines 64-70): each retrieved document is reported with
`relevance = 1 - distance`. -/
def ragFormatResults (docs : List SearchResult) : List RagToolEntry :=
  docs.map (fun d => { filepath := d.filepath, content := d.content, relevance := some (1 - d.distance) })

/-! ### Chunking: `RAGSystem._split_text` (rag_system.py lines 94-126) -/

/-- Accumulating tokenizer: splits a character stream at whitespace,
dropping empty pieces (`acc` holds the current word reversed). -/
def wordsAux : List Char → List Char → List String
  | [], acc => if acc.isEmpty then [] else [String.mk acc.reverse]
  | c :: cs, acc =>
    if c.isWhitespace then
      (if acc.isEmpty then [] else [String.mk acc.reverse]) ++ wordsAux cs []
    else
      wordsAux cs (c :: acc)

/-- Python `text.split()`: the maximal whitespace-free runs of the
text, in order. -/
def tokens (text : String) : List String :=
  wordsAux text.toList []

/-- Python `" ".join(words)`. -/
def joinWords : List String → String
  | [] => ""
  | [w] => w
  | w :: ws => w ++ " " ++ joinWords ws

/-- The running character length of a chunk as the source maintains it:
`sum(len(w) + 1 for w in chunk)` (one unit per word for the space). -/
def charLen (l : List String) : Nat :=
  (l.map (fun w => w.length + 1)).sum

/-- The overlap carried from a finished chunk into the next:
`current_chunk[-overlap:] if len(current_chunk) > overlap else
current_chunk` (rag_system.py line 116). Mirrors Python's `[-0:]`,
which is the whole list. -/
def overlapWords (ov : Nat) (cur : List String) : List String :=
  if ov < cur.length then
    (if ov = 0 then cur else cur.drop (cur.length - ov))
  else
    cur

/-- The word loop of `RAGSystem._split_text` (rag_system.py lines
111-124): accumulate words; when appending the next word would push the
running character length `current_length` over `chunk_size` (and the
chunk is nonempty), emit the chunk and restart from its overlap suffix
plus the word; finally emit the remainder if nonempty. -/
def splitWordsAux (chunkSize ov : Nat) :
    List String → List String → Nat → List (List String) → List (List String)
  | [], cur, _, chunks => if cur.isEmpty then chunks else chunks ++ [cur]
  | w :: ws, cur, curLen, chunks =>
    if curLen + (w.length + 1) > chunkSize && !cur.isEmpty then
      let ovW := overlapWords ov cur
      splitWordsAux chunkSize ov ws (ovW ++ [w]) (charLen (ovW ++ [w])) (chunks ++ [cur])
    else
      splitWordsAux chunkSize ov ws (cur ++ [w]) (curLen + (w.length + 1)) chunks

/-- `RAGSystem._split_text`: the chunk word lists joined by single
spaces. Source defaults: `chunk_size = 500`, `overlap = 50`. -/
def splitText (text : String) (chunkSize ov : Nat) : List String :=
  (splitWordsAux chunkSize ov (tokens text) [] 0 []).map joinWords

/-- The word loop of `_split_text` again, with each emitted chunk paired
with the length of the overlap prefix it inherited from its predecessor
(0 for the first chunk); the chunk word lists are exactly those of
`splitWordsAux`. -/
def splitWordsOvAux (chunkSize ov : Nat) :
    List String → List String → Nat → Nat → List (Nat × List String) → List (Nat × List String)
  | [], cur, _, curOv, chunks => if cur.isEmpty then chunks else chunks ++ [(curOv, cur)]
  | w :: ws, cur, curLen, curOv, chunks =>
    if curLen + (w.length + 1) > chunkSize && !cur.isEmpty then
      let ovW := overlapWords ov cur
      splitWordsOvAux chunkSize ov ws (ovW ++ [w]) (charLen (ovW ++ [w])) ovW.length (chunks ++ [(curOv, cur)])
    else
      splitWordsOvAux chunkSize ov ws (cur ++ [w]) (curLen + (w.length + 1)) curOv chunks

/-- `_split_text` instrumented with each chunk's inherited overlap
length. -/
def splitTextWithOverlaps (text : String) (chunkSize ov : Nat) : List (Nat × List String) :=
  splitWordsOvAux chunkSize ov (tokens text) [] 0 0 []

/-- Concatenation of the chunks with each chunk's leading overlap
prefix removed. -/
def stripJoin (chunks : List (Nat × List String)) : List String :=
  (chunks.map (fun p => p.2.drop p.1)).flatten

/-- Adjacency invariant of the chunk sequence: every chunk after the
first starts with exactly the overlap suffix (whole tokens, computed by
`overlapWords`) of its predecessor, and the predecessor was closed
because appending the successor's first fresh word would have pushed its
character length over `chunkSize`. -/
def Chained (chunkSize ov : Nat) : List (Nat × List String) → Prop
  | [] => True
  | [_] => True
  | a :: b :: rest =>
    b.2.take b.1 = overlapWords ov a.2 ∧
    charLen a.2 + (((b.2.drop b.1).headD "").length + 1) > chunkSize ∧
    Chained chunkSize ov (b :: rest)

/-! ### Auxiliary definitions for the claims -/

/-- The three dispatch-time failure modes of `_execute_tools`, each with
the error message the source attaches: a request naming an unregistered
tool; an argument payload that `json.loads` fails to parse; an exception
raised inside the tool's action. -/
inductive DispatchFailure (m : Registry) (parse : String → Except String Args)
    (tc : ToolCall) : String → Prop where
  | unknownTool : lookupTool m tc.name = none →
      DispatchFailure m parse tc ("Unknown tool: " ++ tc.name)
  | badArguments (tool : Tool) (e : String) : lookupTool m tc.name = some tool →
      resolveArgs parse tc.args = .error e → DispatchFailure m parse tc e
  | actionRaised (tool : Tool) (a : Args) (e : String) : lookupTool m tc.name = some tool →
      resolveArgs parse tc.args = .ok a → tool.execute a = .error e →
      DispatchFailure m parse tc e

/-- The error-result shape `{success: false, error: msg}` that the
specification prescribes for dispatch-level tool failures. -/
def specErrorShape (v : JVal) : Prop :=
  ∃ msg, v = .obj [("success", .bool false), ("error", .str msg)]

/-- Placeholder request used only as a `getD` default. -/
def defaultToolCall : ToolCall := { id := "", name := "", args := .parsed [] }

/-- A concrete tool whose action always raises, exercising the failure
paths in witnesses. -/
def toolBoom : Tool :=
  { name := "boom", description := "always raises", execute := fun _ => .error "boom" }

/-- The claim on `_split_text` as the specification states it: chunk
size is measured in whitespace-delimited tokens with target ≈500 and
only the final chunk may be shorter, so under any reading of
"approximately" every non-final chunk holds at least 100 tokens. -/
def SplitSizesInTokens : Prop :=
  ∀ text : String, ∀ c ∈ (splitText text 500 50).dropLast, 100 ≤ (tokens c).length

/-- A parse oracle that always fails, standing in for `json.loads` on
malformed payloads. -/
def parseFail : String → Except String Args := fun _ => .error "bad json"

/-- A model oracle emitting one tool-requesting response, then a final
tool-call-free response. -/
def llmOneBatch : Nat → Except String Response := fun k =>
  if k = 0 then .ok (mkResponse "c0" [{ id := "1", name := "nope", args := .parsed [] }])
  else .ok (mkResponse "done" [])

/-- A model oracle that requests a tool on every call. -/
def llmAllTools : Nat → Except String Response := fun _ =>
  .ok (mkResponse "x" [{ id := "1", name := "nope", args := .parsed [] }])

/-- A model oracle that converges immediately. -/
def llmImmediate : Nat → Except String Response := fun _ =>
  .ok (mkResponse "final" [])

/-- A model oracle whose responses carry no usable choice. -/
def llmNoChoice : Nat → Except String Response := fun _ =>
  .ok { choices := [] }

/-- A 100-character word. -/
def wordA : String := String.mk (List.replicate 100 'a')

/-- Eight 100-character words: 8 tokens, 807 characters. -/
def textCex : String := joinWords (List.replicate 8 wordA)

/-! ## Registry lemmas -/

theorem fst_replaceEntry (t : Tool) (p : String × Tool) :
    ((if p.1 = t.name then (p.1, t) else p) : String × Tool).1 = p.1 := by
  by_cases hp : p.1 = t.name <;> simp [hp]

theorem lookupTool_dictInsert (m : List (String × Tool)) (t : Tool) (n : String) :
    lookupTool (dictInsert m t) n = if n = t.name then some t else lookupTool m n := by
  unfold dictInsert lookupTool
  cases hmem : m.any (fun p => p.1 = t.name) with
  | true =>
    simp only [hmem, if_true]
    rw [List.find?_map]
    have hpred : ((fun p : String × Tool => decide (p.1 = n)) ∘ fun p => if p.1 = t.name then (p.1, t) else p)
        = fun p : String × Tool => decide (p.1 = n) := by
      funext p
      simp [Function.comp, fst_replaceEntry]
    rw [hpred]
    by_cases hn : n = t.name
    · rw [if_pos hn]
      rcases List.any_eq_true.mp hmem with ⟨q, hq, hq1⟩
      have hsome : (m.find? (fun p => decide (p.1 = n))).isSome := by
        rw [List.find?_isSome]
        exact ⟨q, hq, by rw [hn]; exact hq1⟩
      rcases Option.isSome_iff_exists.mp hsome with ⟨r, hr⟩
      have hr1 : r.1 = n := by simpa using List.find?_some hr
      rw [hr]
      have hrt : r.1 = t.name := hr1.trans hn
      simp [hrt]
    · simp only [if_neg hn]
      cases hfind : m.find? (fun p => decide (p.1 = n)) with
      | none => simp [hfind]
      | some r =>
        have hr1 : r.1 = n := by simpa using List.find?_some hfind
        have hrt : ¬r.1 = t.name := by rw [hr1]; exact hn
        simp [hfind, hrt]
  | false =>
    simp only [Bool.false_eq_true, if_false]
    rw [List.find?_append]
    by_cases hn : n = t.name
    · have hnone : m.find? (fun p => decide (p.1 = n)) = none := by
        rw [List.find?_eq_none]
        intro p hp
        simp only [decide_eq_true_eq]
        intro hcontra
        have : m.any (fun p => p.1 = t.name) = true :=
          List.any_eq_true.mpr ⟨p, hp, by simp [hcontra, ← hn]⟩
        rw [hmem] at this
        exact Bool.false_ne_true this
      rw [hnone]
      simp [List.find?_cons, hn, Ne.symm]
    · cases hfind : m.find? (fun p => decide (p.1 = n)) with
      | some r => simp [hfind, hn]
      | none =>
        have hne : ¬t.name = n := fun h => hn h.symm
        simp [hfind, List.find?_cons, hn, hne]

theorem buildTools_append_single (ts : List Tool) (t : Tool) :
    buildTools (ts ++ [t]) = dictInsert (buildTools ts) t := by
  unfold buildTools
  rw [List.foldl_append]
  rfl

/-- Looking a name up in the registry finds the last-registered tool of
that name. -/
theorem lookupTool_buildTools (ts : List Tool) (n : String) :
    lookupTool (buildTools ts) n = (ts.filter (fun t => t.name = n)).getLast? := by
  induction ts using List.reverseRecOn with
  | nil => rfl
  | append_singleton ts t ih =>
    rw [buildTools_append_single, lookupTool_dictInsert, List.filter_append]
    by_cases hn : n = t.name
    · subst hn
      simp [List.getLast?_concat]
    · simp only [if_neg hn]
      have : List.filter (fun x => decide (x.name = n)) [t] = [] := by
        simp [Ne.symm hn]
      rw [this, List.append_nil, ih]

theorem keys_dictInsert_nodup (m : List (String × Tool)) (t : Tool)
    (h : (m.map Prod.fst).Nodup) : ((dictInsert m t).map Prod.fst).Nodup := by
  unfold dictInsert
  cases hmem : m.any (fun p => p.1 = t.name) with
  | true =>
    simp only [hmem, if_true]
    have heq : (m.map (fun p => if p.1 = t.name then (p.1, t) else p)).map Prod.fst = m.map Prod.fst := by
      rw [List.map_map]
      apply List.map_congr_left
      intro p _
      exact fst_replaceEntry t p
    rw [heq]
    exact h
  | false =>
    simp only [Bool.false_eq_true, if_false]
    rw [List.map_append, List.nodup_append]
    refine ⟨h, List.nodup_singleton _, ?_⟩
    intro a ha hb
    simp only [List.map_cons, List.map_nil, List.mem_singleton] at hb
    subst hb
    rcases List.mem_map.mp ha with ⟨p, hp, hfst⟩
    have : m.any (fun p => p.1 = t.name) = true :=
      List.any_eq_true.mpr ⟨p, hp, by simpa using hfst⟩
    rw [hmem] at this
    exact Bool.false_ne_true this

theorem keys_buildTools_nodup (ts : List Tool) : ((buildTools ts).map Prod.fst).Nodup := by
  induction ts using List.reverseRecOn with
  | nil => exact List.nodup_nil
  | append_singleton ts t ih =>
    rw [buildTools_append_single]
    exact keys_dictInsert_nodup _ _ ih

theorem entry_key_is_name_dictInsert (m : List (String × Tool)) (t : Tool)
    (h : ∀ p ∈ m, p.1 = p.2.name) : ∀ p ∈ dictInsert m t, p.1 = p.2.name := by
  unfold dictInsert
  cases hmem : m.any (fun p => p.1 = t.name) with
  | true =>
    simp only [hmem, if_true]
    intro p hp
    rcases List.mem_map.mp hp with ⟨q, hq, hmap⟩
    by_cases hqt : q.1 = t.name
    · rw [if_pos hqt] at hmap
      subst hmap
      simpa using hqt
    · rw [if_neg hqt] at hmap
      subst hmap
      exact h q hq
  | false =>
    simp only [Bool.false_eq_true, if_false]
    intro p hp
    rcases List.mem_append.mp hp with hp | hp
    · exact h p hp
    · simp only [List.mem_singleton] at hp
      subst hp
      rfl

theorem entry_key_is_name (ts : List Tool) : ∀ p ∈ buildTools ts, p.1 = p.2.name := by
  induction ts using List.reverseRecOn with
  | nil => intro p hp; simp [buildTools] at hp
  | append_singleton ts t ih =>
    rw [buildTools_append_single]
    exact entry_key_is_name_dictInsert _ _ ih

/-- C4: a registry built from a tool list with duplicate names keeps
only the last-registered capability per name: lookup (used by `invoke`,
i.e. `self.tools[name].execute`) answers with the tool registered last
for that name, and `_get_tools_for_llm` (describe_all) produces one
descriptor per distinct name (the descriptor names carry no
duplicates). -/
theorem C4_last_registration_wins (ts : List Tool) (n : String) :
    lookupTool (buildTools ts) n = (ts.filter (fun t => t.name = n)).getLast? ∧
    ((getToolsForLLM (buildTools ts)).map (fun d => d.name)).Nodup ∧
    (getToolsForLLM (buildTools ts)).length = (buildTools ts).length := by
  refine ⟨lookupTool_buildTools ts n, ?_, by simp [getToolsForLLM]⟩
  have hkeys : (getToolsForLLM (buildTools ts)).map (fun d => d.name) = (buildTools ts).map Prod.fst := by
    unfold getToolsForLLM
    rw [List.map_map]
    apply List.map_congr_left
    intro p hp
    exact (entry_key_is_name ts p hp).symm
  rw [hkeys]
  exact keys_buildTools_nodup ts

/-! ## Tool dispatch: `_execute_tools` -/

theorem executeTools_length (m : Registry) (parse : String → Except String Args)
    (calls : List ToolCall) : (executeTools m parse calls).length = calls.length := by
  simp [executeTools]

theorem execOne_dispatchFailure (m : Registry) (parse : String → Except String Args)
    (tc : ToolCall) (msg : String) (h : DispatchFailure m parse tc msg) :
    execOne m parse tc = errObj msg := by
  cases h with
  | unknownTool h => simp [execOne, h]
  | badArguments tool e h1 h2 => simp [execOne, h1, h2]
  | actionRaised tool a e h1 h2 h3 => simp [execOne, h1, h2, h3]

/-- C2 (amended): every dispatch-time tool failure — unregistered name,
unparseable argument payload, or an exception raised by the action — is
converted by `_execute_tools` into the structured error result
`{error: msg}` (with no `success` field) placed at that request's
position of the result list, and `_execute_tools` always returns one
result per request, so no failure propagates out of it or aborts the
loop. -/
theorem C2_dispatch_failures_become_error_objects (m : Registry)
    (parse : String → Except String Args) (calls : List ToolCall) :
    (executeTools m parse calls).length = calls.length ∧
    (∀ i, i < calls.length → ∀ msg,
      DispatchFailure m parse (calls.getD i defaultToolCall) msg →
      (executeTools m parse calls).getD i (JVal.str "") = errObj msg) := by
  refine ⟨executeTools_length m parse calls, ?_⟩
  intro i hi msg hfail
  have hlen : i < (executeTools m parse calls).length := by
    rw [executeTools_length]; exact hi
  rw [List.getD_eq_getElem?_getD, List.getElem?_eq_getElem hlen, Option.getD_some]
  have hget : (executeTools m parse calls)[i] = execOne m parse calls[i] := by
    simp [executeTools]
  rw [hget]
  have hgetD : calls.getD i defaultToolCall = calls[i] := by
    rw [List.getD_eq_getElem?_getD, List.getElem?_eq_getElem hi, Option.getD_some]
  rw [hgetD] at hfail
  exact execOne_dispatchFailure m parse _ msg hfail

/-- C2 witness: a batch whose single request names an unregistered tool
yields the `{error: "Unknown tool: nope"}` object at position 0. -/
theorem C2_dispatch_failures_witness :
    (executeTools (buildTools [toolBoom]) (fun _ => .error "bad json")
        [{ id := "1", name := "nope", args := .parsed [] }]).getD 0 (JVal.str "")
      = errObj ("Unknown tool: " ++ "nope") :=
  (C2_dispatch_failures_become_error_objects _ _ _).2 0 (by decide) _
    (DispatchFailure.unknownTool (by rfl))

/-- C2 counterexample: the dispatch-level error object the code builds
for an unknown tool is `{error: msg}`; it does not have the
`{success: false, error: msg}` shape the claim states. -/
theorem C2_counterexample :
    executeTools ([] : Registry) (fun _ => .error "bad json")
        [{ id := "1", name := "nope", args := .parsed [] }]
      = [errObj ("Unknown tool: " ++ "nope")] ∧
    ¬ specErrorShape (errObj ("Unknown tool: " ++ "nope")) := by
  constructor
  · rfl
  · rintro ⟨msg, h⟩
    simp [errObj] at h

/-! ## Tool-result pairing -/

theorem toolMessagesAux_cons (results : List JVal) (i : Nat) (tc : ToolCall)
    (rest : List ToolCall) :
    toolMessagesAux results i (tc :: rest)
      = if tc.id = "" then toolMessagesAux results (i + 1) rest
        else mkToolMessage tc.id (results.getD i noResultObj) :: toolMessagesAux results (i + 1) rest := by
  rw [toolMessagesAux]

theorem pairedToolMessages_cons (tc : ToolCall) (rest : List ToolCall)
    (r : JVal) (rs : List JVal) :
    pairedToolMessages (tc :: rest) (r :: rs)
      = (if tc.id = "" then [] else [mkToolMessage tc.id r]) ++ pairedToolMessages rest rs := by
  rw [pairedToolMessages, List.zip_cons_cons, List.filterMap_cons]
  by_cases hid : tc.id = "" <;> simp [hid, pairedToolMessages]

theorem toolMessagesAux_eq_paired (results : List JVal) :
    ∀ (tcs : List ToolCall) (i : Nat), i + tcs.length ≤ results.length →
    toolMessagesAux results i tcs = pairedToolMessages tcs (results.drop i) := by
  intro tcs
  induction tcs with
  | nil => intro i _; rfl
  | cons tc rest ih =>
    intro i hle
    have hi : i < results.length := by
      simp only [List.length_cons] at hle
      omega
    have hdrop : results.drop i = results[i] :: results.drop (i + 1) :=
      List.drop_eq_getElem_cons hi
    have hgetD : results.getD i noResultObj = results[i] := by
      rw [List.getD_eq_getElem?_getD, List.getElem?_eq_getElem hi, Option.getD_some]
    have hrest : toolMessagesAux results (i + 1) rest = pairedToolMessages rest (results.drop (i + 1)) := by
      apply ih
      simp only [List.length_cons] at hle
      omega
    rw [toolMessagesAux_cons, hdrop, pairedToolMessages_cons, hrest, hgetD]
    by_cases hid : tc.id = ""
    · rw [if_pos hid, if_pos hid, List.nil_append]
    · rw [if_neg hid, if_neg hid, List.singleton_append]

theorem toolMessagesFor_eq_paired (tcs : List ToolCall) (results : List JVal)
    (h : tcs.length ≤ results.length) :
    toolMessagesFor tcs results = pairedToolMessages tcs results := by
  have := toolMessagesAux_eq_paired results tcs 0 (by omega)
  simpa [toolMessagesFor] using this

/-- C5: in every batch, a request with a missing identifier is skipped —
its tool is still executed (`_execute_tools` returns one result per
request, identifier or not) but no tool message is produced for it —
and the appended tool messages are exactly the id-carrying requests
zipped positionally with their own results, each tagged with its
request's identifier; consequently every appended tool message carries a
nonempty identifier that occurs among the identifiers of the preceding
assistant message's requests. -/
theorem C5_pairing_consistency (m : Registry) (parse : String → Except String Args)
    (tcs : List ToolCall) :
    (executeTools m parse tcs).length = tcs.length ∧
    toolMessagesFor tcs (executeTools m parse tcs)
      = pairedToolMessages tcs (executeTools m parse tcs) ∧
    (∀ msg ∈ toolMessagesFor tcs (executeTools m parse tcs),
      msg.toolCallId ≠ "" ∧ msg.toolCallId ∈ tcs.map (fun tc => tc.id)) := by
  refine ⟨executeTools_length m parse tcs, ?_, ?_⟩
  · exact toolMessagesFor_eq_paired tcs _ (by rw [executeTools_length])
  · intro msg hmsg
    rw [toolMessagesFor_eq_paired tcs _ (by rw [executeTools_length])] at hmsg
    unfold pairedToolMessages at hmsg
    rcases List.mem_filterMap.mp hmsg with ⟨p, hp, hmk⟩
    by_cases hid : p.1.id = ""
    · rw [if_pos hid] at hmk
      exact absurd hmk (by simp)
    · rw [if_neg hid] at hmk
      have hmsgid : msg.toolCallId = p.1.id := by
        rw [← Option.some.inj hmk]
        rfl
      constructor
      · rw [hmsgid]; exact hid
      · rw [hmsgid]
        exact List.mem_map.mpr ⟨p.1, (List.of_mem_zip hp).1, rfl⟩

/-- C5 witness: a batch with one id-less and one id-carrying request
produces exactly one tool message, tagged "a", and both tools were
executed. -/
theorem C5_pairing_consistency_witness :
    (executeTools ([] : Registry) (fun _ => .error "bad json")
        [{ id := "", name := "x", args := .parsed [] },
         { id := "a", name := "y", args := .parsed [] }]).length = 2 ∧
    ({ role := "tool", content := renderJVal (errObj ("Unknown tool: " ++ "y")),
       toolCallId := "a" } : Message).toolCallId ≠ "" := by
  have h := C5_pairing_consistency ([] : Registry) (fun _ => .error "bad json")
    [{ id := "", name := "x", args := .parsed [] },
     { id := "a", name := "y", args := .parsed [] }]
  refine ⟨h.1, ?_⟩
  exact (h.2.2 _ (by rw [h.2.1]; exact List.mem_singleton.mpr rfl)).1

/-! ## The orchestration loop -/

theorem processLoop_zero (m : Registry) (parse : String → Except String Args)
    (llm : Nat → Except String Response) (k : Nat) (msgs : List Message) (content : String) :
    processLoop m parse llm 0 k msgs content
      = { exit := .capReached, content := content, messages := msgs, modelCalls := 0 } := by
  rw [processLoop]

theorem processLoop_succ_error (m : Registry) (parse : String → Except String Args)
    (llm : Nat → Except String Response) (fuel k : Nat) (msgs : List Message) (content e : String)
    (h : llm k = .error e) :
    processLoop m parse llm (fuel + 1) k msgs content
      = { exit := .llmError e, content := content, messages := msgs, modelCalls := 1 } := by
  rw [processLoop, h]

theorem processLoop_succ_noChoice (m : Registry) (parse : String → Except String Args)
    (llm : Nat → Except String Response) (fuel k : Nat) (msgs : List Message) (content : String)
    (h : llm k = .ok { choices := [] }) :
    processLoop m parse llm (fuel + 1) k msgs content
      = { exit := .noChoice, content := content, messages := msgs, modelCalls := 1 } := by
  rw [processLoop, h]
  rfl

theorem processLoop_succ_final (m : Registry) (parse : String → Except String Args)
    (llm : Nat → Except String Response) (fuel k : Nat) (msgs : List Message) (content c : String)
    (h : llm k = .ok (mkResponse c [])) :
    processLoop m parse llm (fuel + 1) k msgs content
      = { exit := .finalAnswer, content := c, messages := msgs, modelCalls := 1 } := by
  rw [processLoop, h]
  rfl

theorem processLoop_succ_tools (m : Registry) (parse : String → Except String Args)
    (llm : Nat → Except String Response) (fuel k : Nat) (msgs : List Message) (content c : String)
    (tcs : List ToolCall) (h : llm k = .ok (mkResponse c tcs)) (hne : tcs ≠ []) :
    processLoop m parse llm (fuel + 1) k msgs content
      = (let r := processLoop m parse llm fuel (k + 1)
            (msgs ++ assistantMessage c tcs :: toolMessagesFor tcs (executeTools m parse tcs)) c
         { r with modelCalls := r.modelCalls + 1 }) := by
  rw [processLoop, h]
  have hempty : (assistantMessage c tcs).toolCalls.isEmpty = false := by
    rw [List.isEmpty_eq_false_iff_exists_mem]
    rcases List.exists_mem_of_ne_nil tcs hne with ⟨x, hx⟩
    exact ⟨x, hx⟩
  simp only [mkResponse, List.head?_cons, hempty]
  rfl

/-- One batch of the loop-message growth: the assistant message carrying
the batch's requests followed by its paired tool messages. -/
def batchMessages (m : Registry) (parse : String → Except String Args)
    (content : String) (tcs : List ToolCall) : List Message :=
  assistantMessage content tcs :: pairedToolMessages tcs (executeTools m parse tcs)

theorem toolMessagesFor_executeTools (m : Registry) (parse : String → Except String Args)
    (tcs : List ToolCall) :
    toolMessagesFor tcs (executeTools m parse tcs) = pairedToolMessages tcs (executeTools m parse tcs) :=
  toolMessagesFor_eq_paired tcs _ (by rw [executeTools_length])

theorem processLoop_run (m : Registry) (parse : String → Except String Args)
    (llm : Nat → Except String Response) (fc : String) :
    ∀ (N : Nat) (conts : Nat → String) (reqs : Nat → List ToolCall) (k fuel : Nat)
      (msgs : List Message) (content : String),
    N < fuel →
    (∀ i, i < N → llm (k + i) = .ok (mkResponse (conts i) (reqs i)) ∧ reqs i ≠ []) →
    llm (k + N) = .ok (mkResponse fc []) →
    processLoop m parse llm fuel k msgs content
      = { exit := .finalAnswer, content := fc,
          messages := msgs ++ (List.range N).flatMap (fun i => batchMessages m parse (conts i) (reqs i)),
          modelCalls := N + 1 } := by
  intro N
  induction N with
  | zero =>
    intro conts reqs k fuel msgs content hfuel _ hfin
    rcases Nat.exists_eq_succ_of_ne_zero (Nat.pos_iff_ne_zero.mp hfuel) with ⟨f, rfl⟩
    rw [Nat.add_zero] at hfin
    rw [processLoop_succ_final m parse llm f k msgs content fc hfin]
    simp
  | succ N ih =>
    intro conts reqs k fuel msgs content hfuel hreq hfin
    rcases Nat.exists_eq_succ_of_ne_zero (Nat.pos_iff_ne_zero.mp (Nat.lt_of_le_of_lt (Nat.zero_le _) hfuel)) with ⟨f, rfl⟩
    have h0 := hreq 0 (Nat.succ_pos N)
    rw [Nat.add_zero] at h0
    rw [processLoop_succ_tools m parse llm f k msgs content (conts 0) (reqs 0) h0.1 h0.2]
    have hshift : ∀ i, i < N →
        llm ((k + 1) + i) = .ok (mkResponse (conts (i + 1)) (reqs (i + 1))) ∧ reqs (i + 1) ≠ [] := by
      intro i hi
      have := hreq (i + 1) (Nat.succ_lt_succ hi)
      rwa [show k + (i + 1) = (k + 1) + i by omega] at this
    have hfin' : llm ((k + 1) + N) = .ok (mkResponse fc []) := by
      rwa [show k + (N + 1) = (k + 1) + N by omega] at hfin
    rw [ih (fun i => conts (i + 1)) (fun i => reqs (i + 1)) (k + 1) f _ _
      (Nat.lt_of_succ_lt_succ hfuel) hshift hfin']
    have hmsgs : (msgs ++ assistantMessage (conts 0) (reqs 0)
          :: toolMessagesFor (reqs 0) (executeTools m parse (reqs 0)))
        ++ (List.range N).flatMap (fun i => batchMessages m parse (conts (i + 1)) (reqs (i + 1)))
        = msgs ++ (List.range (N + 1)).flatMap (fun i => batchMessages m parse (conts i) (reqs i)) := by
      rw [List.range_succ_eq_map, List.flatMap_cons, List.flatMap_map, List.append_assoc]
      rw [toolMessagesFor_executeTools]
      rfl
    simp only [hmsgs]

theorem processLoop_cap (m : Registry) (parse : String → Except String Args)
    (llm : Nat → Except String Response) :
    ∀ (fuel : Nat) (conts : Nat → String) (reqs : Nat → List ToolCall) (k : Nat)
      (msgs : List Message) (content : String),
    1 ≤ fuel →
    (∀ i, i < fuel → llm (k + i) = .ok (mkResponse (conts i) (reqs i)) ∧ reqs i ≠ []) →
    (processLoop m parse llm fuel k msgs content).exit = .capReached ∧
    (processLoop m parse llm fuel k msgs content).content = conts (fuel - 1) ∧
    (processLoop m parse llm fuel k msgs content).modelCalls = fuel := by
  intro fuel
  induction fuel with
  | zero => intro _ _ _ _ _ h; omega
  | succ f ih =>
    intro conts reqs k msgs content _ hreq
    have h0 := hreq 0 (Nat.succ_pos f)
    rw [Nat.add_zero] at h0
    rw [processLoop_succ_tools m parse llm f k msgs content (conts 0) (reqs 0) h0.1 h0.2]
    cases f with
    | zero =>
      simp [processLoop_zero]
    | succ f' =>
      have hshift : ∀ i, i < f' + 1 →
          llm ((k + 1) + i) = .ok (mkResponse (conts (i + 1)) (reqs (i + 1))) ∧ reqs (i + 1) ≠ [] := by
        intro i hi
        have := hreq (i + 1) (Nat.succ_lt_succ hi)
        rwa [show k + (i + 1) = (k + 1) + i by omega] at this
      have hih := ih (fun i => conts (i + 1)) (fun i => reqs (i + 1)) (k + 1)
        (msgs ++ assistantMessage (conts 0) (reqs 0)
          :: toolMessagesFor (reqs 0) (executeTools m parse (reqs 0)))
        (conts 0) (Nat.succ_le_succ (Nat.zero_le f')) hshift
      refine ⟨?_, ?_, ?_⟩
      · simp [hih.1]
      · simp [hih.2.1]
      · simp [hih.2.2]

/-- C1: when the model produces `N` tool-requesting responses followed
by one tool-call-free response and `N + 1` does not exceed the iteration
cap, `process_query` calls the model exactly `N + 1` times, appends per
batch the assistant message followed by one tool message per id-carrying
request (paired positionally with its request's identifier, in emission
order), and returns exactly the final response's content. With `N = 0` —
a tool-call-free first response — the loop terminates within one
iteration. -/
theorem C1_loop_convergence (m : Registry) (parse : String → Except String Args)
    (llm : Nat → Except String Response) (N : Nat) (conts : Nat → String)
    (reqs : Nat → List ToolCall) (finalContent : String) (history : List Message)
    (query : String)
    (hcap : N + 1 ≤ maxIterations)
    (hreq : ∀ i, i < N → llm i = .ok (mkResponse (conts i) (reqs i)) ∧ reqs i ≠ [])
    (hfin : llm N = .ok (mkResponse finalContent [])) :
    (processQueryFull m parse llm history query).result = finalContent ∧
    (processQueryFull m parse llm history query).exit = .finalAnswer ∧
    (processQueryFull m parse llm history query).modelCalls = N + 1 ∧
    (processQueryFull m parse llm history query).loopMessages
      = (systemMessage m :: lastN 5 (history ++ [userMessage query]))
        ++ (List.range N).flatMap (fun i => batchMessages m parse (conts i) (reqs i)) := by
  have hrun := processLoop_run m parse llm finalContent N conts reqs 0 maxIterations
    (systemMessage m :: lastN 5 (history ++ [userMessage query])) ""
    (by omega) (fun i hi => by simpa using hreq i hi) (by simpa using hfin)
  simp only [processQueryFull]
  rw [hrun]
  simp

/-- C1 witness: one tool-requesting response then a final one — two
model calls, result "done". -/
theorem C1_loop_convergence_witness :
    (processQueryFull [] parseFail llmOneBatch [] "hi").result = "done" ∧
    (processQueryFull [] parseFail llmOneBatch [] "hi").modelCalls = 2 := by
  have h := C1_loop_convergence [] parseFail llmOneBatch 1 (fun _ => "c0")
    (fun _ => [{ id := "1", name := "nope", args := .parsed [] }]) "done" [] "hi"
    (by simp [maxIterations])
    (fun i hi => by
      have hi0 : i = 0 := by omega
      subst hi0
      exact ⟨rfl, by simp⟩)
    rfl
  exact ⟨h.1, h.2.2.1⟩

/-- C3: when every one of the 25 permitted iterations produces a
tool-requesting response, the loop reaches the iteration cap without
raising, makes exactly 25 model calls, and `process_query` returns the
textual content of the last model message it received (which may be the
empty string). -/
theorem C3_cap_returns_last_content (m : Registry) (parse : String → Except String Args)
    (llm : Nat → Except String Response) (conts : Nat → String)
    (reqs : Nat → List ToolCall) (history : List Message) (query : String)
    (hreq : ∀ i, i < maxIterations →
      llm i = .ok (mkResponse (conts i) (reqs i)) ∧ reqs i ≠ []) :
    (processQueryFull m parse llm history query).exit = .capReached ∧
    (processQueryFull m parse llm history query).result = conts 24 ∧
    (processQueryFull m parse llm history query).modelCalls = maxIterations := by
  have hcap := processLoop_cap m parse llm maxIterations conts reqs 0
    (systemMessage m :: lastN 5 (history ++ [userMessage query])) ""
    (by simp [maxIterations]) (fun i hi => by simpa using hreq i hi)
  simp only [processQueryFull]
  rw [hcap.1]
  refine ⟨rfl, ?_, hcap.2.2⟩
  have h2 := hcap.2.1
  simpa [maxIterations] using h2

/-- C3 witness: a model that always requests tools drives the loop to
the cap; the returned text is the last content "x". -/
theorem C3_cap_returns_last_content_witness :
    (processQueryFull [] parseFail llmAllTools [] "hi").result = "x" ∧
    (processQueryFull [] parseFail llmAllTools [] "hi").modelCalls = maxIterations := by
  have h := C3_cap_returns_last_content [] parseFail llmAllTools (fun _ => "x")
    (fun _ => [{ id := "1", name := "nope", args := .parsed [] }]) [] "hi"
    (fun i hi => ⟨rfl, by simp⟩)
  exact ⟨h.2.1, h.2.2⟩

/-- C9: `process_review` leaves the persistent conversation history
entirely unchanged on every path (success, cap exhaustion, no-choice
failure, raised exception), while a `process_query` run that converges
appends, after the loop, exactly one assistant message carrying the
returned content (on top of the user entry appended before the loop). -/
theorem C9_review_stateless_query_appends (m : Registry) (parse : String → Except String Args)
    (llm : Nat → Except String Response) (history : List Message) (query : String) :
    (processReviewFull m parse llm history query).history = history ∧
    ((processQueryFull m parse llm history query).exit = .finalAnswer →
      (processQueryFull m parse llm history query).history
        = (history ++ [userMessage query])
          ++ [{ role := "assistant", content := (processQueryFull m parse llm history query).result }]) := by
  constructor
  · simp only [processReviewFull]
    cases hexit : (processLoop m parse llm maxIterations 0
        [reviewSystemMessage m, { role := "user", content := query }] "").exit <;>
      rfl
  · intro hfin
    simp only [processQueryFull] at hfin ⊢
    cases hexit : (processLoop m parse llm maxIterations 0
        (systemMessage m :: lastN 5 (history ++ [userMessage query])) "").exit <;>
      simp_all

/-- C9 witness: with an immediately converging model, review leaves the
(empty) history empty and the general mode appends user + assistant. -/
theorem C9_review_stateless_query_appends_witness :
    (processReviewFull [] parseFail llmImmediate [] "q").history = [] ∧
    (processQueryFull [] parseFail llmImmediate [] "q").history
      = ([] ++ [userMessage "q"])
        ++ [{ role := "assistant", content := (processQueryFull [] parseFail llmImmediate [] "q").result }] := by
  have h := C9_review_stateless_query_appends [] parseFail llmImmediate [] "q"
  exact ⟨h.1, h.2 rfl⟩

/-- C10: `process_query` appends the user query to the persistent
history before any model call — on every path, including both failure
paths, the prior history extended with the user entry is a prefix of the
final history — and on the failure paths (no usable choice, or an
exception converted to an error string) nothing else is appended: the
query remains as exactly one new, unanswered user entry. -/
theorem C10_user_entry_on_failure_paths (m : Registry) (parse : String → Except String Args)
    (llm : Nat → Except String Response) (history : List Message) (query : String) :
    (history ++ [userMessage query]) <+: (processQueryFull m parse llm history query).history ∧
    ((processQueryFull m parse llm history query).exit = .noChoice →
      (processQueryFull m parse llm history query).result = noChoiceText ∧
      (processQueryFull m parse llm history query).history = history ++ [userMessage query]) ∧
    (∀ e, (processQueryFull m parse llm history query).exit = .llmError e →
      (processQueryFull m parse llm history query).result = "Ошибка при обработке запроса: " ++ e ∧
      (processQueryFull m parse llm history query).history = history ++ [userMessage query]) ∧
    (∀ nextQuery, userMessage query ∈
      lastN 5 ((history ++ [userMessage query]) ++ [userMessage nextQuery])) := by
  refine ⟨?_, ?_, ?_, ?_⟩
  · simp only [processQueryFull]
    cases hexit : (processLoop m parse llm maxIterations 0
        (systemMessage m :: lastN 5 (history ++ [userMessage query])) "").exit <;>
      simp_all [List.prefix_append]
  · simp only [processQueryFull]
    cases hexit : (processLoop m parse llm maxIterations 0
        (systemMessage m :: lastN 5 (history ++ [userMessage query])) "").exit <;>
      simp_all
  · simp only [processQueryFull]
    cases hexit : (processLoop m parse llm maxIterations 0
        (systemMessage m :: lastN 5 (history ++ [userMessage query])) "").exit <;>
      simp_all
  · intro nextQuery
    unfold lastN
    rw [List.append_assoc, List.drop_append_of_le_length (by
      simp only [List.length_append, List.length_cons, List.length_nil]
      omega)]
    exact List.mem_append_right _ (by simp)

/-- C10 witness: a model response without choices leaves exactly the
new user entry and returns the fixed failure text. -/
theorem C10_user_entry_on_failure_paths_witness :
    (processQueryFull [] parseFail llmNoChoice [] "q").result = noChoiceText ∧
    (processQueryFull [] parseFail llmNoChoice [] "q").history = [] ++ [userMessage "q"] := by
  have h := C10_user_entry_on_failure_paths [] parseFail llmNoChoice [] "q"
  exact h.2.1 rfl

/-! ## Retrieval: `RAGSystem.search` -/

theorem mem_insertByDist (e a : StoreEntry) :
    ∀ l, a ∈ insertByDist e l ↔ a = e ∨ a ∈ l := by
  intro l
  induction l with
  | nil => simp [insertByDist]
  | cons x xs ih =>
    simp only [insertByDist]
    by_cases h : e.distance ≤ x.distance
    · rw [if_pos h]
      simp [List.mem_cons]
    · rw [if_neg h]
      simp only [List.mem_cons, ih]
      tauto

theorem pairwise_insertByDist (e : StoreEntry) :
    ∀ l, l.Pairwise (fun a b => a.distance ≤ b.distance) →
      (insertByDist e l).Pairwise (fun a b => a.distance ≤ b.distance) := by
  intro l
  induction l with
  | nil => intro _; simp [insertByDist]
  | cons x xs ih =>
    intro hp
    rw [List.pairwise_cons] at hp
    simp only [insertByDist]
    by_cases h : e.distance ≤ x.distance
    · rw [if_pos h, List.pairwise_cons]
      constructor
      · intro b hb
        rcases List.mem_cons.mp hb with rfl | hb
        · exact h
        · exact le_trans h (hp.1 b hb)
      · rw [List.pairwise_cons]
        exact hp
    · rw [if_neg h, List.pairwise_cons]
      constructor
      · intro b hb
        rcases (mem_insertByDist e b xs).mp hb with rfl | hb
        · exact (not_le.mp h).le
        · exact hp.1 b hb
      · exact ih hp.2

theorem pairwise_sortByDist (l : List StoreEntry) :
    (sortByDist l).Pairwise (fun a b => a.distance ≤ b.distance) := by
  unfold sortByDist
  induction l with
  | nil => simp
  | cons x xs ih => exact pairwise_insertByDist x _ ih

/-- C6: `search` returns at most `top_k` results, ordered by descending
similarity where similarity is `1 − distance` under the cosine-distance
metric (the store hands back hits by ascending cosine distance); an
empty store yields the empty list instead of an error; and the
`rag_search` tool reports each result's relevance as exactly
`1 − distance`. -/
theorem C6_search_topk_ordering (store : List StoreEntry) (topK : Nat) :
    (ragSearch store topK).length ≤ topK ∧
    ((ragSearch store topK).map (fun r => (1 : ℚ) - r.distance)).Pairwise (fun a b => b ≤ a) ∧
    ragSearch [] topK = [] ∧
    (ragFormatResults (ragSearch store topK)).map (fun e => e.relevance)
      = (ragSearch store topK).map (fun r => some ((1 : ℚ) - r.distance)) := by
  refine ⟨?_, ?_, ?_, ?_⟩
  · simp only [ragSearch]
    split
    · rw [List.length_map, collectionQuery]
      exact List.length_take_le _ _
    · simp
  · simp only [ragSearch]
    split
    · rw [List.map_map, List.pairwise_map]
      have hsorted : (collectionQuery store topK).Pairwise (fun a b => a.distance ≤ b.distance) :=
        (pairwise_sortByDist store).sublist (List.take_sublist _ _)
      exact hsorted.imp (fun h => by simpa using sub_le_sub_left h 1)
    · simp
  · simp [ragSearch, collectionQuery, sortByDist]
  · simp [ragFormatResults, List.map_map]

/-! ## Chunking: `_split_text` -/

theorem splitWordsOvAux_snd (cs ov : Nat) :
    ∀ (ws cur : List String) (curLen curOv : Nat) (chunks : List (Nat × List String)),
    (splitWordsOvAux cs ov ws cur curLen curOv chunks).map Prod.snd
      = splitWordsAux cs ov ws cur curLen (chunks.map Prod.snd) := by
  intro ws
  induction ws with
  | nil =>
    intro cur curLen curOv chunks
    simp only [splitWordsOvAux, splitWordsAux]
    cases h : cur.isEmpty <;> simp [h]
  | cons w ws ih =>
    intro cur curLen curOv chunks
    simp only [splitWordsOvAux, splitWordsAux]
    by_cases h : (decide (curLen + (w.length + 1) > cs) && !cur.isEmpty) = true
    · rw [if_pos h, if_pos h, ih]
      simp
    · rw [if_neg h, if_neg h, ih]

theorem splitWordsOvAux_accum (cs ov : Nat) :
    ∀ (ws cur : List String) (curLen curOv : Nat) (chunks : List (Nat × List String)),
    splitWordsOvAux cs ov ws cur curLen curOv chunks
      = chunks ++ splitWordsOvAux cs ov ws cur curLen curOv [] := by
  intro ws
  induction ws with
  | nil =>
    intro cur curLen curOv chunks
    simp only [splitWordsOvAux]
    cases h : cur.isEmpty <;> simp [h]
  | cons w ws ih =>
    intro cur curLen curOv chunks
    simp only [splitWordsOvAux]
    by_cases h : (decide (curLen + (w.length + 1) > cs) && !cur.isEmpty) = true
    · rw [if_pos h, if_pos h]
      rw [ih (overlapWords ov cur ++ [w]) (charLen (overlapWords ov cur ++ [w]))
        (overlapWords ov cur).length (chunks ++ [(curOv, cur)])]
      rw [ih (overlapWords ov cur ++ [w]) (charLen (overlapWords ov cur ++ [w]))
        (overlapWords ov cur).length ([] ++ [(curOv, cur)])]
      simp
    · rw [if_neg h, if_neg h]
      exact ih (cur ++ [w]) (curLen + (w.length + 1)) curOv chunks

theorem splitWordsOvAux_stripJoin (cs ov : Nat) :
    ∀ (ws cur : List String) (curLen curOv : Nat) (chunks : List (Nat × List String)),
    curOv ≤ cur.length →
    stripJoin (splitWordsOvAux cs ov ws cur curLen curOv chunks)
      = stripJoin chunks ++ cur.drop curOv ++ ws := by
  intro ws
  induction ws with
  | nil =>
    intro cur curLen curOv chunks hle
    simp only [splitWordsOvAux]
    cases h : cur.isEmpty
    · simp [stripJoin, List.map_append]
    · have : cur = [] := List.isEmpty_iff.mp h
      subst this
      simp [stripJoin]
  | cons w ws ih =>
    intro cur curLen curOv chunks hle
    simp only [splitWordsOvAux]
    by_cases h : (decide (curLen + (w.length + 1) > cs) && !cur.isEmpty) = true
    · rw [if_pos h]
      rw [ih (overlapWords ov cur ++ [w]) (charLen (overlapWords ov cur ++ [w]))
        (overlapWords ov cur).length (chunks ++ [(curOv, cur)]) (by simp)]
      have hdrop : (overlapWords ov cur ++ [w]).drop (overlapWords ov cur).length = [w] :=
        List.drop_left _ _
      rw [hdrop]
      simp [stripJoin, List.map_append]
    · rw [if_neg h]
      have hle' : curOv ≤ (cur ++ [w]).length := by
        rw [List.length_append]
        omega
      rw [ih (cur ++ [w]) (curLen + (w.length + 1)) curOv chunks hle']
      rw [List.drop_append_of_le_length hle]
      simp

/-- C8: chunking a document and concatenating the chunks with each
chunk's leading overlap tokens removed reconstructs the
whitespace-normalized original (its tokens joined by single spaces).
The first conjunct certifies that the instrumented splitter's chunks,
joined, are exactly `_split_text`'s chunks; the second performs the
round trip using each chunk's recorded overlap-prefix length. -/
theorem C8_chunking_roundtrip (text : String) (cs ov : Nat) :
    ((splitTextWithOverlaps text cs ov).map Prod.snd).map joinWords = splitText text cs ov ∧
    joinWords (stripJoin (splitTextWithOverlaps text cs ov)) = joinWords (tokens text) := by
  constructor
  · unfold splitTextWithOverlaps splitText
    rw [splitWordsOvAux_snd]
    rfl
  · unfold splitTextWithOverlaps
    rw [splitWordsOvAux_stripJoin cs ov (tokens text) [] 0 0 [] (by simp)]
    simp [stripJoin]

theorem charLen_append_single (cur : List String) (w : String) :
    charLen (cur ++ [w]) = charLen cur + (w.length + 1) := by
  simp [charLen]

theorem splitWordsOvAux_first (cs ov : Nat) :
    ∀ (ws cur : List String) (curLen curOv : Nat),
    splitWordsOvAux cs ov ws cur curLen curOv [] = [] ∨
    ∃ ext rest, splitWordsOvAux cs ov ws cur curLen curOv [] = (curOv, cur ++ ext) :: rest := by
  intro ws
  induction ws with
  | nil =>
    intro cur curLen curOv
    simp only [splitWordsOvAux]
    cases h : cur.isEmpty
    · right
      exact ⟨[], [], by simp⟩
    · left
      rfl
  | cons w ws ih =>
    intro cur curLen curOv
    simp only [splitWordsOvAux]
    by_cases h : (decide (curLen + (w.length + 1) > cs) && !cur.isEmpty) = true
    · rw [if_pos h]
      right
      rw [splitWordsOvAux_accum cs ov ws (overlapWords ov cur ++ [w])
        (charLen (overlapWords ov cur ++ [w])) (overlapWords ov cur).length ([] ++ [(curOv, cur)])]
      exact ⟨[], splitWordsOvAux cs ov ws (overlapWords ov cur ++ [w])
        (charLen (overlapWords ov cur ++ [w])) (overlapWords ov cur).length [], by simp⟩
    · rw [if_neg h]
      rcases ih (cur ++ [w]) (curLen + (w.length + 1)) curOv with h0 | ⟨ext, rest, heq⟩
      · left
        exact h0
      · right
        exact ⟨[w] ++ ext, rest, by rw [heq]; simp⟩

theorem chained_splitWordsOvAux (cs ov : Nat) :
    ∀ (ws cur : List String) (curLen curOv : Nat), curLen = charLen cur →
    Chained cs ov (splitWordsOvAux cs ov ws cur curLen curOv []) := by
  intro ws
  induction ws with
  | nil =>
    intro cur curLen curOv _
    simp only [splitWordsOvAux]
    cases h : cur.isEmpty
    · exact trivial
    · exact trivial
  | cons w ws ih =>
    intro cur curLen curOv hlen
    simp only [splitWordsOvAux]
    by_cases h : (decide (curLen + (w.length + 1) > cs) && !cur.isEmpty) = true
    · rw [if_pos h]
      rw [splitWordsOvAux_accum cs ov ws (overlapWords ov cur ++ [w])
        (charLen (overlapWords ov cur ++ [w])) (overlapWords ov cur).length ([] ++ [(curOv, cur)])]
      have hrest := ih (overlapWords ov cur ++ [w]) (charLen (overlapWords ov cur ++ [w]))
        (overlapWords ov cur).length rfl
      have hover : curLen + (w.length + 1) > cs := by
        have := (Bool.and_eq_true _ _).mp h
        simpa using this.1
      rcases splitWordsOvAux_first cs ov ws (overlapWords ov cur ++ [w])
          (charLen (overlapWords ov cur ++ [w])) (overlapWords ov cur).length with h0 | ⟨ext, rest, heq⟩
      · rw [h0]
        exact trivial
      · rw [heq]
        rw [heq] at hrest
        refine ⟨?_, ?_, hrest⟩
        · rw [List.append_assoc]
          exact List.take_left _ _
        · rw [List.append_assoc, List.drop_left]
          rw [← hlen]
          simpa using hover
    · rw [if_neg h]
      exact ih (cur ++ [w]) (curLen + (w.length + 1)) curOv
        (by rw [hlen, charLen_append_single])

/-- C7 (amended): `_split_text` measures the chunk budget in characters
— each token contributing its length plus one separator — and the
overlap in whole tokens: every chunk after the first begins with
exactly the token-level overlap suffix (`overlapWords`, the last
`min(overlap, len)` whole tokens) of its predecessor, and each
non-final chunk was closed precisely because appending the next fresh
token would have pushed its character length over `chunk_size`; the
final chunk is the remainder, and non-final chunks may also end up
shorter (or longer) than the budget. The first conjunct certifies the
instrumented chunks are `_split_text`'s chunks. -/
theorem C7_amended_chunk_measures (text : String) (cs ov : Nat) :
    ((splitTextWithOverlaps text cs ov).map Prod.snd).map joinWords = splitText text cs ov ∧
    Chained cs ov (splitTextWithOverlaps text cs ov) := by
  constructor
  · unfold splitTextWithOverlaps splitText
    rw [splitWordsOvAux_snd]
    rfl
  · unfold splitTextWithOverlaps
    exact chained_splitWordsOvAux cs ov (tokens text) [] 0 0 rfl

/-- C7 counterexample: `textCex` holds 8 whitespace-delimited tokens —
far below any reading of a ≈500-token target — yet `_split_text` with
the default parameters cuts it into 5 chunks, the first holding only 4
tokens (and only 403 characters, so it is a non-final chunk shorter
than the target in characters as well): chunk size is not measured in
tokens, and non-final chunks can be shorter than the target. -/
theorem C7_counterexample :
    ¬ SplitSizesInTokens ∧
    (splitText textCex 500 50).length = 5 ∧
    (tokens textCex).length = 8 ∧
    ((splitText textCex 500 50).headD "").length = 403 := by
  refine ⟨?_, ?_, ?_, ?_⟩
  · intro h
    have hd : (splitText textCex 500 50).dropLast
        = [joinWords (List.replicate 4 wordA), joinWords (List.replicate 5 wordA),
           joinWords (List.replicate 6 wordA), joinWords (List.replicate 7 wordA)] := by
      rfl
    have hmem : joinWords (List.replicate 4 wordA) ∈ (splitText textCex 500 50).dropLast := by
      rw [hd]
      exact List.mem_cons_self _ _
    have hcount := h textCex _ hmem
    have htok : (tokens (joinWords (List.replicate 4 wordA))).length = 4 := by rfl
    omega
  · rfl
  · rfl
  · rfl

end MailAds
